import Mathlib

/-!
Shallow embedding of the activation-diffusion core of
`src/components/EngramNetwork3D.tsx` (the `EngramNetwork3D` component).

The embedding covers:
* the static graph (`nodes`, `edges`, lines 275-292 of the source),
* the activation ledger (a JS `Map<number, number>`), with `mapGet`
  mirroring `map.get(k) || 0` and `mapSet` mirroring `map.set(k, v)`,
* the merge-max update performed inside `spreadActivation`
  (lines 325-332), named `setIfHigher` after the spec's contract name,
* the recursive neighbour propagation `spreadActivation` (lines 315-345),
  reified as the list of deliveries it performs (target node, transferred
  strength, and the depth of the call that delivered it),
* the decay sweep body of the `setInterval` callback (lines 348-367),
  named `decayAll`, together with its `hasActiveNodes` self-termination
  signal (`decayStep`),
* the immediate (non-deferred) part of `handleActivate` (lines 300-312
  plus the scheduling calls on lines 345, 348, 370), as a state
  transformer on `EngineState`.

All JS numbers are embedded as exact rationals: 0.6 = 3/5, 0.1 = 1/10,
0.2 = 1/5, 0.95 = 19/20, 0.05 = 1/20.
-/

namespace Engram

/-- Node categories, mirroring `type NodeType = 'query' | 'concept' | 'raw'`. -/
inductive NodeType where
  | query
  | concept
  | raw
deriving DecidableEq, Repr

/-- Mirrors `interface EngramNode` (id, position, label, type). -/
structure EngramNode where
  id : Nat
  position : ℚ × ℚ × ℚ
  label : String
  type : NodeType
deriving DecidableEq, Repr

/-- Mirrors `interface EngramEdge` (source, target). -/
structure EngramEdge where
  source : Nat
  target : Nat
deriving DecidableEq, Repr

/-- The six nodes defined in the component (lines 275-282). -/
def nodes : List EngramNode :=
  [ ⟨0, (0, 0, 0), "Query: Orders Slow", NodeType.query⟩,
    ⟨1, (-3/2, 1, 1/2), "Latency", NodeType.concept⟩,
    ⟨2, (3/2, 1, -1/2), "DB Index", NodeType.concept⟩,
    ⟨3, (-2, -1/2, 1), "Timeout Error", NodeType.raw⟩,
    ⟨4, (2, -1/2, -1), "Index Optimization", NodeType.raw⟩,
    ⟨5, (0, -3/2, 0), "Optimization Plan", NodeType.concept⟩ ]

/-- The six edges defined in the component (lines 285-292). -/
def edges : List EngramEdge :=
  [ ⟨0, 1⟩, ⟨0, 2⟩, ⟨1, 3⟩, ⟨2, 4⟩, ⟨4, 5⟩, ⟨1, 2⟩ ]

/-- The activation ledger: a `Map<number, number>` as an association list. -/
abbrev Ledger := List (Nat × ℚ)

/-- Mirrors `map.get(k) || 0`: the stored level, or 0 when absent. -/
def mapGet (L : Ledger) (k : Nat) : ℚ :=
  match L with
  | [] => 0
  | (a, v) :: rest => if a = k then v else mapGet rest k

/-- Mirrors `map.set(k, v)`: replace the entry for `k`, or append it. -/
def mapSet (L : Ledger) (k : Nat) (v : ℚ) : Ledger :=
  match L with
  | [] => [(k, v)]
  | (a, w) :: rest => if a = k then (k, v) :: rest else (a, w) :: mapSet rest k v

/-- The merge-max update of lines 325-332: `const currentActivation =
newMap.get(neighborId) || 0; if (transferStrength > currentActivation)
newMap.set(neighborId, transferStrength)`. -/
def setIfHigher (L : Ledger) (k : Nat) (s : ℚ) : Ledger :=
  if mapGet L k < s then mapSet L k s else L

/-- The decay sweep of lines 349-366: every entry is multiplied by 0.95 and
kept only when the new value exceeds 0.05. -/
def decayAll (L : Ledger) : Ledger :=
  (L.map (fun p => (p.1, p.2 * (19/20)))).filter (fun p => (1/20 : ℚ) < p.2)

/-- One tick of the decay interval: the new ledger together with
`hasActiveNodes`; the interval reschedules itself exactly while the flag
is `true` (lines 361-363 clear the interval when it is `false`). -/
def decayStep (L : Ledger) : Ledger × Bool :=
  ((decayAll L), !(decayAll L).isEmpty)

/-- One ledger installation performed by `spreadActivation`: the neighbour
that receives activation, the transferred strength, and the `depth`
argument of the call that performed it. -/
structure Delivery where
  neighborId : Nat
  transferStrength : ℚ
  depth : Nat
deriving DecidableEq, Repr

/-- Fuelled form of `spreadActivation` (lines 315-343). The source recursion
is well-founded because `depth` increases and every call with `depth > 3`
returns immediately; `spreadGo` makes it structural on `fuel`.
`spreadActivation` below instantiates `fuel := 4`, which
`spreadGo_fuel_irrel` and `spreadActivation_eq` prove is enough for the
fuel never to alter the result: fuel can only run out at `depth ≥ 4`,
where the source returns `[]` anyway. -/
def spreadGo (es : List EngramEdge) (sourceId : Nat) (strength : ℚ) (depth : Nat) :
    Nat → List Delivery
  | 0 => []
  | fuel + 1 =>
    if 3 < depth ∨ strength < 1/10 then []
    else
      ((es.filter (fun e => e.source == sourceId || e.target == sourceId)).map (fun e =>
        (⟨if e.source == sourceId then e.target else e.source, strength * (3/5), depth⟩ :
            Delivery) ::
          spreadGo es (if e.source == sourceId then e.target else e.source)
            (strength * (3/5)) (depth + 1) fuel)).flatten

/-- The list of ledger installations performed by `spreadActivation(sourceId,
strength, depth)` over the edge list `es`, in scheduling order. -/
def spreadActivation (es : List EngramEdge) (sourceId : Nat) (strength : ℚ)
    (depth : Nat) : List Delivery :=
  spreadGo es sourceId strength depth 4

/-- Applies a list of deliveries to the ledger in order, each through the
merge-max update of lines 325-332. -/
def applyDeliveries (L : Ledger) (ds : List Delivery) : Ledger :=
  ds.foldl (fun acc d => setIfHigher acc d.neighborId d.transferStrength) L

/-- The deliveries of the wave whose callbacks fire `400 * k` time units
after the depth-`k` calls were scheduled: exactly the deliveries made by
calls with `depth = k`. All depth-`k` callbacks share one fire time
(`400 * (1 + 2 + ... + k)` after `activate`), strictly before any
depth-`k+1` callback. -/
def wave (es : List EngramEdge) (src : Nat) (k : Nat) : List Delivery :=
  (spreadActivation es src 1 1).filter (fun d => d.depth == k)

/-- The pulses emitted by one wave of deliveries (lines 334-338): a pulse is
emitted at the neighbour's position iff the neighbour id is found among
`nodes` and the transferred strength exceeds 0.2. -/
structure Pulse where
  origin : ℚ × ℚ × ℚ
  startTime : ℚ
deriving DecidableEq, Repr

/-- Mirrors lines 334-338 for a list of deliveries: `nodes.find(...)` for the
neighbour, and a pulse only when found and `transferStrength > 0.2`. -/
def wavePulses (clock : ℚ) (ds : List Delivery) : List Pulse :=
  ds.filterMap (fun d =>
    match nodes.find? (fun n => n.id == d.neighborId) with
    | some neighborNode =>
      if (1/5 : ℚ) < d.transferStrength then some ⟨neighborNode.position, clock⟩ else none
    | none => none)

/-- The component state touched by `handleActivate`: the activation map and
pulse list (React state), plus the work the call schedules: the root
`spreadActivation` invocation (line 345), the number of live decay
intervals (line 348), and the number of pending pulse-clear timeouts
(line 370). -/
structure EngineState where
  activations : Ledger
  pulseWaves : List Pulse
  pendingSpreads : List (Nat × ℚ × Nat)
  decayLoops : Nat
  pendingClears : Nat
deriving DecidableEq, Repr

/-- The state before any interaction. -/
def initState : EngineState :=
  ⟨[], [], [], 0, 0⟩

/-- A malformed graph description: the reference edges plus an edge whose
target 99 is not any node's id. Input used by the error-handling claims. -/
def badEdges : List EngramEdge := edges ++ [⟨0, 99⟩]

/-- The immediate effect of `handleActivate(id)` (lines 300-312, 345, 348,
370): look the node up and no-op when absent; otherwise append one pulse
at the node's position stamped with the current engine clock, set the
node's activation to 1, schedule the root propagation
`spreadActivation(id, 1, 1)`, start a new decay interval
(unconditionally), and schedule one pulse-list clear. -/
def handleActivate (st : EngineState) (clock : ℚ) (id : Nat) : EngineState :=
  match nodes.find? (fun n => n.id == id) with
  | none => st
  | some node =>
    { activations := mapSet st.activations id 1
      pulseWaves := st.pulseWaves ++ [⟨node.position, clock⟩]
      pendingSpreads := st.pendingSpreads ++ [(id, 1, 1)]
      decayLoops := st.decayLoops + 1
      pendingClears := st.pendingClears + 1 }

/-! ### Ledger lemmas -/

/-- Unfolding lemma: lookup in a non-empty ledger. -/
theorem mapGet_cons (a : Nat) (w : ℚ) (rest : Ledger) (k : Nat) :
    mapGet ((a, w) :: rest) k = if a = k then w else mapGet rest k := rfl

/-- Unfolding lemma: update of a non-empty ledger. -/
theorem mapSet_cons (a : Nat) (w : ℚ) (rest : Ledger) (k : Nat) (v : ℚ) :
    mapSet ((a, w) :: rest) k v =
      if a = k then (k, v) :: rest else (a, w) :: mapSet rest k v := rfl

/-- Reading back the key just written returns the written value. -/
theorem mapGet_mapSet_self (L : Ledger) (k : Nat) (v : ℚ) :
    mapGet (mapSet L k v) k = v := by
  induction L with
  | nil => simp [mapGet, mapSet]
  | cons p rest ih =>
    obtain ⟨a, w⟩ := p
    by_cases h : a = k <;> simp [mapGet_cons, mapSet_cons, h, ih]

/-- Writing one key leaves every other key's value unchanged. -/
theorem mapGet_mapSet_ne (L : Ledger) (k j : Nat) (v : ℚ) (h : j ≠ k) :
    mapGet (mapSet L k v) j = mapGet L j := by
  have hkj : ¬ k = j := fun hk => h hk.symm
  induction L with
  | nil =>
    simp only [mapSet, mapGet]
    rw [if_neg hkj]
  | cons p rest ih =>
    obtain ⟨a, w⟩ := p
    rw [mapSet_cons]
    by_cases ha : a = k
    · subst ha
      rw [if_pos rfl, mapGet_cons, mapGet_cons, if_neg hkj, if_neg hkj]
    · rw [if_neg ha, mapGet_cons, mapGet_cons, ih]

/-- The merge-max update reads back as a pointwise maximum: the touched key
becomes the max of its old value and the offered strength, all other keys
are untouched. -/
theorem mapGet_setIfHigher (L : Ledger) (k j : Nat) (s : ℚ) :
    mapGet (setIfHigher L k s) j =
      if j = k then max (mapGet L k) s else mapGet L j := by
  unfold setIfHigher
  by_cases hj : j = k
  · subst hj
    by_cases h : mapGet L j < s
    · simp [h, mapGet_mapSet_self, le_of_lt h, max_eq_right]
    · simp [h, max_eq_left (le_of_not_lt h)]
  · by_cases h : mapGet L k < s <;> simp [h, hj, mapGet_mapSet_ne L k j s hj]

/-- A key that is present in the ledger carries its looked-up value as an
actual entry. -/
theorem mem_of_mem_keys (L : Ledger) (k : Nat) (h : k ∈ L.map Prod.fst) :
    (k, mapGet L k) ∈ L := by
  induction L with
  | nil => simp at h
  | cons p rest ih =>
    obtain ⟨a, w⟩ := p
    by_cases ha : a = k
    · subst ha
      simp [mapGet_cons]
    · simp only [List.map_cons, List.mem_cons] at h
      rcases h with h | h
      · exact absurd h.symm ha
      · rw [mapGet_cons, if_neg ha]
        exact List.mem_cons.mpr (Or.inr (ih h))

/-- A key with no entry reads back as 0. -/
theorem mapGet_eq_zero_of_not_mem (L : Ledger) (k : Nat) (h : k ∉ L.map Prod.fst) :
    mapGet L k = 0 := by
  induction L with
  | nil => rfl
  | cons p rest ih =>
    obtain ⟨a, w⟩ := p
    simp only [List.map_cons, List.mem_cons, not_or] at h
    rw [mapGet_cons, if_neg (fun ha => h.1 ha.symm), ih h.2]

/-- A decay sweep never invents keys. -/
theorem decayAll_keys_subset (L : Ledger) (k : Nat)
    (h : k ∈ (decayAll L).map Prod.fst) : k ∈ L.map Prod.fst := by
  unfold decayAll at h
  simp only [List.mem_map] at h ⊢
  obtain ⟨p, hp, hk⟩ := h
  have hp2 := List.mem_of_mem_filter hp
  simp only [List.mem_map] at hp2
  obtain ⟨q, hq, hqp⟩ := hp2
  exact ⟨q, hq, by simpa [← hqp] using hk⟩

/-- Unfolding lemma: one decay sweep over a non-empty ledger. -/
theorem decayAll_cons (a : Nat) (w : ℚ) (rest : Ledger) :
    decayAll ((a, w) :: rest) =
      if (1/20 : ℚ) < w * (19/20) then (a, w * (19/20)) :: decayAll rest
      else decayAll rest := by
  unfold decayAll
  rw [List.map_cons, List.filter_cons]
  by_cases hkeep : (1/20 : ℚ) < w * (19/20) <;> simp [hkeep]

/-- Pointwise description of a decay sweep on a duplicate-free ledger: each
key's value is multiplied by 0.95, and the key survives exactly when the
new value exceeds the 0.05 floor. -/
theorem mapGet_decayAll (L : Ledger) (hnd : (L.map Prod.fst).Nodup) (k : Nat) :
    mapGet (decayAll L) k =
      if (1/20 : ℚ) < mapGet L k * (19/20) then mapGet L k * (19/20) else 0 := by
  induction L with
  | nil => simp [decayAll, mapGet]
  | cons p rest ih =>
    obtain ⟨a, w⟩ := p
    simp only [List.map_cons, List.nodup_cons] at hnd
    have hrest := ih hnd.2
    rw [decayAll_cons]
    by_cases ha : a = k
    · subst ha
      have hnotmem : mapGet (decayAll rest) a = 0 := by
        apply mapGet_eq_zero_of_not_mem
        intro hmem
        exact hnd.1 (decayAll_keys_subset rest a hmem)
      have hget : mapGet ((a, w) :: rest) a = w := by rw [mapGet_cons, if_pos rfl]
      by_cases hkeep : (1/20 : ℚ) < w * (19/20)
      · rw [if_pos hkeep, mapGet_cons, if_pos rfl, hget, if_pos hkeep]
      · rw [if_neg hkeep, hget, if_neg hkeep, hnotmem]
    · have hget : mapGet ((a, w) :: rest) k = mapGet rest k := by
        rw [mapGet_cons, if_neg ha]
      by_cases hkeep : (1/20 : ℚ) < w * (19/20)
      · rw [if_pos hkeep, mapGet_cons, if_neg ha, hget, hrest]
      · rw [if_neg hkeep, hget, hrest]

/-- On a duplicate-free ledger, a key whose decayed value does not exceed the
floor is absent from the ledger after the sweep. -/
theorem decayAll_not_mem (L : Ledger) (hnd : (L.map Prod.fst).Nodup) (k : Nat)
    (h : mapGet L k * (19/20) ≤ 1/20) : k ∉ (decayAll L).map Prod.fst := by
  intro hmem
  simp only [List.mem_map] at hmem
  obtain ⟨p, hp, hk⟩ := hmem
  have hpf := List.of_mem_filter hp
  have hpm := List.mem_of_mem_filter hp
  simp only [List.mem_map] at hpm
  obtain ⟨q, hq, hqp⟩ := hpm
  have hkq : q.1 = k := by rw [← hk, ← hqp]
  have hv : mapGet L k = q.2 := by
    have hmemq : (k, mapGet L k) ∈ L :=
      mem_of_mem_keys L k (List.mem_map.mpr ⟨q, hq, hkq⟩)
    have heq := List.inj_on_of_nodup_map hnd hmemq hq (by simp [hkq])
    rw [← heq]
  rw [← hqp] at hpf
  simp only [decide_eq_true_eq] at hpf
  rw [hv] at h
  exact absurd hpf (not_lt.mpr h)

/-! ### Propagation lemmas -/

/-- The fuel argument of `spreadGo` is irrelevant as soon as it cannot run
out before the depth cutoff: fuel exhaustion can only happen at
`depth ≥ 4`, where the source recursion returns `[]` anyway. -/
theorem spreadGo_fuel_irrel (es : List EngramEdge) (src : Nat) (s : ℚ)
    (dep f1 f2 : Nat) (h1 : 4 ≤ dep + f1) (h2 : 4 ≤ dep + f2) :
    spreadGo es src s dep f1 = spreadGo es src s dep f2 := by
  induction f1 generalizing src s dep f2 with
  | zero =>
    have hdep : 3 < dep := by omega
    cases f2 with
    | zero => rfl
    | succ g2 =>
      rw [spreadGo, spreadGo, if_pos (Or.inl hdep)]
  | succ g1 ih =>
    cases f2 with
    | zero =>
      have hdep : 3 < dep := by omega
      rw [spreadGo, spreadGo, if_pos (Or.inl hdep)]
    | succ g2 =>
      rw [spreadGo, spreadGo]
      by_cases hcut : 3 < dep ∨ s < 1/10
      · rw [if_pos hcut, if_pos hcut]
      · rw [if_neg hcut, if_neg hcut]
        apply congrArg
        apply List.map_congr_left
        intro e _
        apply congrArg
        exact ih _ _ _ _ (by omega) (by omega)

/-- The fuelled definition satisfies, for every argument, exactly the
recursive equation of the source function `spreadActivation` of lines
315-343: cut the branch when `depth > 3` or `strength < 0.1`, otherwise
deliver `strength * 0.6` over every incident edge and recurse on each
neighbour at `depth + 1`. -/
theorem spreadActivation_eq (es : List EngramEdge) (src : Nat) (s : ℚ) (dep : Nat) :
    spreadActivation es src s dep =
      if 3 < dep ∨ s < 1/10 then []
      else
        ((es.filter (fun e => e.source == src || e.target == src)).map (fun e =>
          (⟨if e.source == src then e.target else e.source, s * (3/5), dep⟩ :
              Delivery) ::
            spreadActivation es (if e.source == src then e.target else e.source)
              (s * (3/5)) (dep + 1))).flatten := by
  rw [spreadActivation, spreadGo]
  by_cases hcut : 3 < dep ∨ s < 1/10
  · rw [if_pos hcut, if_pos hcut]
  · rw [if_neg hcut, if_neg hcut]
    apply congrArg
    apply List.map_congr_left
    intro e _
    apply congrArg
    exact spreadGo_fuel_irrel es _ _ (dep + 1) 3 4 (by omega) (by omega)

/-- Every delivery made by `spreadGo(sourceId, strength, depth)` transfers
exactly `strength * 0.6^(hops)` where `hops` is the number of hops taken
from the invoking call, its recorded call depth lies between the starting
depth and 3, and the strength is a pure function of the recursion
parameters. -/
theorem spreadGo_strength (es : List EngramEdge) (src : Nat) (s : ℚ) (dep fuel : Nat)
    (d : Delivery) (hd : d ∈ spreadGo es src s dep fuel) :
    d.transferStrength = s * (3/5) ^ (d.depth + 1 - dep) ∧
      dep ≤ d.depth ∧ d.depth ≤ 3 := by
  induction fuel generalizing src s dep with
  | zero => simp [spreadGo] at hd
  | succ fuel ih =>
    rw [spreadGo] at hd
    by_cases hcut : 3 < dep ∨ s < 1/10
    · rw [if_pos hcut] at hd
      simp at hd
    · rw [if_neg hcut] at hd
      push_neg at hcut
      rw [List.mem_flatten] at hd
      obtain ⟨l, hl, hdl⟩ := hd
      rw [List.mem_map] at hl
      obtain ⟨e, he, rfl⟩ := hl
      rcases List.mem_cons.mp hdl with rfl | hrec
      · refine ⟨?_, le_refl dep, hcut.1⟩
        have h1 : dep + 1 - dep = 1 := by omega
        rw [h1, pow_one]
      · obtain ⟨hs, hdep, h3⟩ := ih _ _ _ hrec
        have hdd : dep ≤ d.depth := by omega
        refine ⟨?_, hdd, h3⟩
        have h1 : d.depth + 1 - (dep + 1) = d.depth - dep := by omega
        have h2 : d.depth + 1 - dep = (d.depth - dep) + 1 := by omega
        rw [hs, h1, h2, pow_succ]
        ring

/-- Every delivery's target is an endpoint of some edge of the traversed
edge list. -/
theorem spreadGo_target (es : List EngramEdge) (src : Nat) (s : ℚ) (dep fuel : Nat)
    (d : Delivery) (hd : d ∈ spreadGo es src s dep fuel) :
    ∃ e ∈ es, d.neighborId = e.source ∨ d.neighborId = e.target := by
  induction fuel generalizing src s dep with
  | zero => simp [spreadGo] at hd
  | succ fuel ih =>
    rw [spreadGo] at hd
    by_cases hcut : 3 < dep ∨ s < 1/10
    · rw [if_pos hcut] at hd
      simp at hd
    · rw [if_neg hcut] at hd
      rw [List.mem_flatten] at hd
      obtain ⟨l, hl, hdl⟩ := hd
      rw [List.mem_map] at hl
      obtain ⟨e, he, rfl⟩ := hl
      rcases List.mem_cons.mp hdl with rfl | hrec
      · refine ⟨e, List.mem_of_mem_filter he, ?_⟩
        by_cases hse : e.source == src
        · simp only [hse, if_true]
          exact Or.inr trivial
        · simp only [hse, Bool.false_eq_true, if_false]
          exact Or.inl trivial
      · exact ih _ _ _ hrec

/-- Concrete evaluation of the reference propagation tree: the full list of
deliveries performed after `activate(0)` on the graph of the component, in
scheduling order. -/
theorem spreadActivation_ref_eval :
    spreadActivation edges 0 1 1 = [
      ⟨1, 3/5, 1⟩, ⟨0, 9/25, 2⟩, ⟨1, 27/125, 3⟩, ⟨2, 27/125, 3⟩,
      ⟨3, 9/25, 2⟩, ⟨1, 27/125, 3⟩, ⟨2, 9/25, 2⟩, ⟨0, 27/125, 3⟩,
      ⟨4, 27/125, 3⟩, ⟨1, 27/125, 3⟩, ⟨2, 3/5, 1⟩, ⟨0, 9/25, 2⟩,
      ⟨1, 27/125, 3⟩, ⟨2, 27/125, 3⟩, ⟨4, 9/25, 2⟩, ⟨2, 27/125, 3⟩,
      ⟨5, 27/125, 3⟩, ⟨1, 9/25, 2⟩, ⟨0, 27/125, 3⟩, ⟨3, 27/125, 3⟩,
      ⟨2, 27/125, 3⟩] := by
  norm_num [spreadActivation, spreadGo, edges]

/-- Seeded at strength 1 and depth 1 (the arguments of line 345), every
delivery transfers exactly `0.6 ^ depth` and is made by a call of depth
1, 2 or 3. -/
theorem spread_seed_strength (es : List EngramEdge) (src : Nat) (d : Delivery)
    (hd : d ∈ spreadActivation es src 1 1) :
    d.transferStrength = (3/5) ^ d.depth ∧ 1 ≤ d.depth ∧ d.depth ≤ 3 := by
  obtain ⟨hs, h1, h3⟩ := spreadGo_strength es src 1 1 4 d hd
  refine ⟨?_, h1, h3⟩
  rw [hs]
  have he : d.depth + 1 - 1 = d.depth := by omega
  rw [he, one_mul]

/-! ### Claim theorems -/

/-- Claim C1: `setIfHigher(nodeId, level)` installs `level` only when the node
has no entry or a strictly lower one, so a node reached by two propagation
paths of strengths `s1 < s2` (from a state whose current level does not
exceed the winner) ends at `max s1 s2` in either arrival order, and a
`setIfHigher` never decreases the stored level. -/
theorem setIfHigher_monotonic_merge (L : Ledger) (m : Nat) (s1 s2 : ℚ)
    (h12 : s1 < s2) (hcur : mapGet L m ≤ s2) :
    mapGet (setIfHigher (setIfHigher L m s1) m s2) m = max s1 s2 ∧
      mapGet (setIfHigher (setIfHigher L m s2) m s1) m = max s1 s2 ∧
      mapGet L m ≤ mapGet (setIfHigher L m s1) m ∧
      mapGet L m ≤ mapGet (setIfHigher L m s2) m := by
  have hmax : max s1 s2 = s2 := max_eq_right (le_of_lt h12)
  refine ⟨?_, ?_, ?_, ?_⟩
  · rw [mapGet_setIfHigher, if_pos rfl, mapGet_setIfHigher, if_pos rfl, hmax]
    rw [max_assoc]
    rw [max_eq_right (le_of_lt h12)]
    exact max_eq_right hcur
  · rw [mapGet_setIfHigher, if_pos rfl, mapGet_setIfHigher, if_pos rfl, hmax]
    rw [max_eq_right hcur]
    exact max_eq_left (le_of_lt h12)
  · rw [mapGet_setIfHigher, if_pos rfl]
    exact le_max_left _ _
  · rw [mapGet_setIfHigher, if_pos rfl]
    exact le_max_left _ _

/-- Witness for C1 at a concrete instance: the empty ledger, node 0, and the
two path strengths 0.36 and 0.6 from the reference scenario. -/
theorem setIfHigher_monotonic_merge_witness :
    ((9/25 : ℚ) < 3/5 ∧ mapGet [] 0 ≤ (3/5 : ℚ)) ∧
      (mapGet (setIfHigher (setIfHigher [] 0 (9/25)) 0 (3/5)) 0 = max (9/25) (3/5) ∧
        mapGet (setIfHigher (setIfHigher [] 0 (3/5)) 0 (9/25)) 0 = max (9/25) (3/5) ∧
        mapGet ([] : Ledger) 0 ≤ mapGet (setIfHigher [] 0 (9/25)) 0 ∧
        mapGet ([] : Ledger) 0 ≤ mapGet (setIfHigher [] 0 (3/5)) 0) :=
  ⟨⟨by norm_num, by norm_num [mapGet]⟩,
    setIfHigher_monotonic_merge [] 0 (9/25) (3/5) (by norm_num) (by norm_num [mapGet])⟩

/-- Claim C3: for a node present in the graph, `activate` immediately sets its
activation to 1.0 and appends exactly one pulse at the node's position,
stamped with the current engine clock. -/
theorem activate_immediate (st : EngineState) (clock : ℚ) (id : Nat)
    (node : EngramNode) (hfind : nodes.find? (fun n => n.id == id) = some node) :
    mapGet (handleActivate st clock id).activations id = 1 ∧
      (handleActivate st clock id).pulseWaves =
        st.pulseWaves ++ [⟨node.position, clock⟩] := by
  simp only [handleActivate, hfind]
  exact ⟨mapGet_mapSet_self _ _ _, trivial⟩

/-- Witness for C3 at node 0 of the reference graph from the initial state. -/
theorem activate_immediate_witness :
    nodes.find? (fun n => n.id == 0) =
        some ⟨0, (0, 0, 0), "Query: Orders Slow", NodeType.query⟩ ∧
      (mapGet (handleActivate initState 0 0).activations 0 = 1 ∧
        (handleActivate initState 0 0).pulseWaves =
          initState.pulseWaves ++ [⟨(0, 0, 0), 0⟩]) :=
  ⟨rfl, activate_immediate initState 0 0
    ⟨0, (0, 0, 0), "Query: Orders Slow", NodeType.query⟩ rfl⟩

/-- Claim C6 (counterexample): a decay tick does not commute with a
propagation delivery that is fireable at the same time. With the ledger
holding node 0 at 1.0 and a wave-1 delivery of 0.6 to node 1 concurrent
with a decay tick (both fireable at t = 400), the two orders give node 1
the levels 0.57 and 0.6 respectively. -/
theorem decay_delivery_noncommute :
    mapGet (decayAll (setIfHigher [(0, 1)] 1 (3/5))) 1 = 57/100 ∧
      mapGet (setIfHigher (decayAll [(0, 1)]) 1 (3/5)) 1 = 3/5 ∧
      (57/100 : ℚ) ≠ 3/5 := by
  norm_num [setIfHigher, mapGet, mapSet, decayAll]

/-- Claim C6 (amended): two `setIfHigher` deliveries commute in either order
on every key, so interleaving order of concurrently-fireable propagation
deliveries does not affect the ledger; full order-independence does not
extend to decay ticks (see the counterexample). -/
theorem setIfHigher_comm (L : Ledger) (a : Nat) (s : ℚ) (b : Nat) (t : ℚ) (k : Nat) :
    mapGet (setIfHigher (setIfHigher L a s) b t) k =
      mapGet (setIfHigher (setIfHigher L b t) a s) k := by
  simp only [mapGet_setIfHigher]
  by_cases hka : k = a <;> by_cases hkb : k = b
  · subst hka
    subst hkb
    simp only [if_true]
    rw [max_assoc, max_comm s t, ← max_assoc]
  · subst hka
    simp [hkb, fun h : k = b => hkb h]
  · subst hkb
    simp [hka]
  · simp [hka, hkb]

/-- Claim C7 (counterexample): `handleActivate` starts a decay interval
unconditionally, so two activations (nodes 0 then 1) leave two live decay
loops — the claimed at-most-one invariant fails. -/
theorem double_activate_two_loops :
    (handleActivate (handleActivate initState 0 0) 0 1).decayLoops = 2 ∧
      ¬ (handleActivate (handleActivate initState 0 0) 0 1).decayLoops ≤ 1 := by
  have h : (handleActivate (handleActivate initState 0 0) 0 1).decayLoops = 2 := rfl
  exact ⟨h, by rw [h]; omega⟩

/-- Claim C7 (amended): every `activate` on a node present in the graph
starts one further decay loop, with no already-active check; `n`
overlapping activations leave `n` loops. -/
theorem activate_starts_new_decay_loop (st : EngineState) (clock : ℚ) (id : Nat)
    (node : EngramNode) (hfind : nodes.find? (fun n => n.id == id) = some node) :
    (handleActivate st clock id).decayLoops = st.decayLoops + 1 := by
  simp only [handleActivate, hfind]

/-- Witness for the amended C7 at node 0 from the initial state. -/
theorem activate_starts_new_decay_loop_witness :
    nodes.find? (fun n => n.id == 0) =
        some ⟨0, (0, 0, 0), "Query: Orders Slow", NodeType.query⟩ ∧
      (handleActivate initState 0 0).decayLoops = initState.decayLoops + 1 :=
  ⟨rfl, activate_starts_new_decay_loop initState 0 0
    ⟨0, (0, 0, 0), "Query: Orders Slow", NodeType.query⟩ rfl⟩

/-- Claim C2 (counterexample): seeded at strength 1.0, no delivery is ever
made by a call of depth greater than 3 and the strength 0.1296 = 81/625
is never delivered — the initial call already carries depth 1, so the
depth > 3 cutoff stops the chain after the 0.216 deliveries, before a
0.1296 hop could occur. -/
theorem no_depth4_delivery :
    wave edges 0 4 = [] ∧
      (81/625 : ℚ) ∉ (spreadActivation edges 0 1 1).map Delivery.transferStrength := by
  constructor
  · rw [wave, spreadActivation_ref_eval]
    rfl
  · rw [spreadActivation_ref_eval]
    norm_num

/-- Claim C2 (amended): deliveries occur only at depths 1..3 with strengths
0.6, 0.36, 0.216 (realised on the reference graph); the `depth > 3` and
the `strength < 0.1` conditions each halt a branch on their own. -/
theorem depth_strength_cutoffs (es1 : List EngramEdge) (src1 : Nat) (s1 : ℚ)
    (dep1 : Nat) (h1 : 3 < dep1) (es2 : List EngramEdge) (src2 : Nat) (s2 : ℚ)
    (dep2 : Nat) (h2 : s2 < 1/10) (d : Delivery)
    (hd : d ∈ spreadActivation edges 0 1 1) :
    spreadActivation es1 src1 s1 dep1 = [] ∧
      spreadActivation es2 src2 s2 dep2 = [] ∧
      d.transferStrength = (3/5) ^ d.depth ∧ 1 ≤ d.depth ∧ d.depth ≤ 3 ∧
      (⟨1, 3/5, 1⟩ : Delivery) ∈ spreadActivation edges 0 1 1 ∧
      (⟨0, 9/25, 2⟩ : Delivery) ∈ spreadActivation edges 0 1 1 ∧
      (⟨1, 27/125, 3⟩ : Delivery) ∈ spreadActivation edges 0 1 1 := by
  obtain ⟨hs, hd1, hd3⟩ := spread_seed_strength edges 0 d hd
  refine ⟨?_, ?_, hs, hd1, hd3, ?_, ?_, ?_⟩
  · rw [spreadActivation, spreadGo, if_pos (Or.inl h1)]
  · rw [spreadActivation, spreadGo, if_pos (Or.inr h2)]
  · rw [spreadActivation_ref_eval]
    exact List.mem_cons_self _ _
  · rw [spreadActivation_ref_eval]
    exact List.mem_cons.mpr (Or.inr (List.mem_cons_self _ _))
  · rw [spreadActivation_ref_eval]
    exact List.mem_cons.mpr (Or.inr (List.mem_cons.mpr (Or.inr (List.mem_cons_self _ _))))

/-- Witness for the amended C2: cutoffs at depth 4 and at strength 0, and the
first delivery of the reference tree. -/
theorem depth_strength_cutoffs_witness :
    (3 < 4 ∧ (0 : ℚ) < 1/10 ∧
        (⟨1, 3/5, 1⟩ : Delivery) ∈ spreadActivation edges 0 1 1) ∧
      (spreadActivation [] 0 1 4 = [] ∧
        spreadActivation [] 0 0 1 = [] ∧
        (⟨1, (3:ℚ)/5, 1⟩ : Delivery).transferStrength = (3/5) ^ (⟨1, (3:ℚ)/5, 1⟩ : Delivery).depth ∧
        1 ≤ (⟨1, (3:ℚ)/5, 1⟩ : Delivery).depth ∧ (⟨1, (3:ℚ)/5, 1⟩ : Delivery).depth ≤ 3 ∧
        (⟨1, 3/5, 1⟩ : Delivery) ∈ spreadActivation edges 0 1 1 ∧
        (⟨0, 9/25, 2⟩ : Delivery) ∈ spreadActivation edges 0 1 1 ∧
        (⟨1, 27/125, 3⟩ : Delivery) ∈ spreadActivation edges 0 1 1) :=
  ⟨⟨by norm_num, by norm_num,
      by rw [spreadActivation_ref_eval]; exact List.mem_cons_self _ _⟩,
    depth_strength_cutoffs [] 0 1 4 (by norm_num) [] 0 0 1 (by norm_num)
      ⟨1, 3/5, 1⟩ (by rw [spreadActivation_ref_eval]; exact List.mem_cons_self _ _)⟩

/-- Claim C4: a decay sweep multiplies every surviving entry by 0.95,
strictly decreases every present entry of a positive, duplicate-free
ledger, removes every entry whose decayed level is at or below the 0.05
floor, and the decay loop's rescheduling flag is false exactly when the
sweep leaves the ledger empty. -/
theorem decay_sweep_spec (L : Ledger) (hnd : (L.map Prod.fst).Nodup)
    (hpos : ∀ p ∈ L, 0 < p.2) (k1 k2 k3 : Nat)
    (h1 : (1/20 : ℚ) < mapGet L k1 * (19/20))
    (h2 : k2 ∈ L.map Prod.fst)
    (h3 : mapGet L k3 * (19/20) ≤ 1/20) :
    mapGet (decayAll L) k1 = mapGet L k1 * (19/20) ∧
      mapGet (decayAll L) k2 < mapGet L k2 ∧
      k3 ∉ (decayAll L).map Prod.fst ∧
      ((decayStep L).2 = false ↔ decayAll L = []) := by
  have hg2 : 0 < mapGet L k2 := by
    have hmem := mem_of_mem_keys L k2 h2
    exact hpos _ hmem
  refine ⟨?_, ?_, decayAll_not_mem L hnd k3 h3, ?_⟩
  · rw [mapGet_decayAll L hnd k1, if_pos h1]
  · rw [mapGet_decayAll L hnd k2]
    have hlt : mapGet L k2 * (19/20) < mapGet L k2 := by
      nlinarith
    by_cases hkeep : (1/20 : ℚ) < mapGet L k2 * (19/20)
    · rw [if_pos hkeep]
      exact hlt
    · rw [if_neg hkeep]
      exact hg2
  · simp [decayStep, List.isEmpty_iff]

/-- Witness for C4 on the two-entry ledger with levels 1 and 1/19: the first
entry decays to 0.95 and survives, the second decays to exactly the 0.05
floor and is removed. -/
theorem decay_sweep_spec_witness :
    ((([(0, 1), (1, 1/19)] : Ledger).map Prod.fst).Nodup ∧
        (∀ p ∈ ([(0, 1), (1, 1/19)] : Ledger), 0 < p.2) ∧
        (1/20 : ℚ) < mapGet [(0, 1), (1, 1/19)] 0 * (19/20) ∧
        0 ∈ (([(0, 1), (1, 1/19)] : Ledger).map Prod.fst) ∧
        mapGet [(0, 1), (1, 1/19)] 1 * (19/20) ≤ 1/20) ∧
      (mapGet (decayAll [(0, 1), (1, 1/19)]) 0 =
          mapGet [(0, 1), (1, 1/19)] 0 * (19/20) ∧
        mapGet (decayAll [(0, 1), (1, 1/19)]) 0 < mapGet [(0, 1), (1, 1/19)] 0 ∧
        1 ∉ (decayAll [(0, 1), (1, 1/19)]).map Prod.fst ∧
        ((decayStep [(0, 1), (1, 1/19)]).2 = false ↔
          decayAll [(0, 1), (1, 1/19)] = [])) :=
  ⟨⟨by norm_num, by norm_num, by norm_num [mapGet], by norm_num, by norm_num [mapGet]⟩,
    decay_sweep_spec [(0, 1), (1, 1/19)] (by norm_num) (by norm_num) 0 0 1
      (by norm_num [mapGet]) (by norm_num) (by norm_num [mapGet])⟩

/-- Claim C5: the end-to-end scenario on the reference graph. `activate(0)`
immediately puts node 0 at 1.0 with one pulse at its position; the first
wave raises nodes 1 and 2 to 0.6; the second wave raises node 3 to 0.36
and node 4 to 0.36 (via 0 to 2 at 0.6, then 2 to 4 at 0.36), while node
2 — re-reached through the 1-2 edge at 0.36 — stays at 0.6 and node 0
stays at 1. -/
theorem activate_scenario :
    mapGet (handleActivate initState 0 0).activations 0 = 1 ∧
      (handleActivate initState 0 0).pulseWaves = [⟨(0, 0, 0), 0⟩] ∧
      mapGet (applyDeliveries (handleActivate initState 0 0).activations
        (wave edges 0 1)) 1 = 3/5 ∧
      mapGet (applyDeliveries (handleActivate initState 0 0).activations
        (wave edges 0 1)) 2 = 3/5 ∧
      mapGet (applyDeliveries (applyDeliveries (handleActivate initState 0 0).activations
        (wave edges 0 1)) (wave edges 0 2)) 3 = 9/25 ∧
      mapGet (applyDeliveries (applyDeliveries (handleActivate initState 0 0).activations
        (wave edges 0 1)) (wave edges 0 2)) 2 = 3/5 ∧
      mapGet (applyDeliveries (applyDeliveries (handleActivate initState 0 0).activations
        (wave edges 0 1)) (wave edges 0 2)) 4 = 9/25 ∧
      mapGet (applyDeliveries (applyDeliveries (handleActivate initState 0 0).activations
        (wave edges 0 1)) (wave edges 0 2)) 0 = 1 := by
  have hseed : (handleActivate initState 0 0).activations = [(0, 1)] := rfl
  have hpulse : (handleActivate initState 0 0).pulseWaves = [⟨(0, 0, 0), 0⟩] := rfl
  have hw1 : wave edges 0 1 = [⟨1, 3/5, 1⟩, ⟨2, 3/5, 1⟩] := by
    rw [wave, spreadActivation_ref_eval]
    rfl
  have hw2 : wave edges 0 2 = [⟨0, 9/25, 2⟩, ⟨3, 9/25, 2⟩, ⟨2, 9/25, 2⟩,
      ⟨0, 9/25, 2⟩, ⟨4, 9/25, 2⟩, ⟨1, 9/25, 2⟩] := by
    rw [wave, spreadActivation_ref_eval]
    rfl
  rw [hseed, hpulse, hw1, hw2]
  norm_num [applyDeliveries, setIfHigher, mapGet, mapSet]

/-- Claim C8: activating an id that is not a node leaves the whole component
state unchanged — no ledger or pulse change, no propagation, decay loop
or pulse-clear scheduled — and every delivery target arising during
propagation over the reference edges is a node id, so an internal
neighbour lookup of an unknown id never occurs. -/
theorem activate_unknown_noop (st : EngineState) (clock : ℚ) (id : Nat)
    (hid : id ∉ nodes.map EngramNode.id)
    (src : Nat) (s : ℚ) (dep : Nat) (d : Delivery)
    (hd : d ∈ spreadActivation edges src s dep) :
    handleActivate st clock id = st ∧ d.neighborId ∈ nodes.map EngramNode.id := by
  constructor
  · have hfind : nodes.find? (fun n => n.id == id) = none := by
      rw [List.find?_eq_none]
      intro n hn heq
      exact hid (List.mem_map.mpr ⟨n, hn, by simpa using heq⟩)
    simp only [handleActivate, hfind]
  · obtain ⟨e, he, hor⟩ := spreadGo_target edges src s dep 4 d hd
    have hends : ∀ e ∈ edges, e.source ∈ nodes.map EngramNode.id ∧
        e.target ∈ nodes.map EngramNode.id := by decide
    rcases hor with h | h <;> rw [h]
    · exact (hends e he).1
    · exact (hends e he).2

/-- Witness for C8: id 9 is unknown, and the first delivery of the reference
tree targets node 1, a real node. -/
theorem activate_unknown_noop_witness :
    (9 ∉ nodes.map EngramNode.id ∧
        (⟨1, 3/5, 1⟩ : Delivery) ∈ spreadActivation edges 0 1 1) ∧
      (handleActivate initState 0 9 = initState ∧
        (⟨1, (3:ℚ)/5, 1⟩ : Delivery).neighborId ∈ nodes.map EngramNode.id) :=
  ⟨⟨by decide, by rw [spreadActivation_ref_eval]; exact List.mem_cons_self _ _⟩,
    activate_unknown_noop initState 0 9 (by decide) 0 1 1 ⟨1, 3/5, 1⟩
      (by rw [spreadActivation_ref_eval]; exact List.mem_cons_self _ _)⟩

/-- Claim C9 (counterexample): a graph description with an edge to the
non-existent node 99 is not rejected at construction; the first
propagation wave after `activate(0)` installs a ledger entry 0.6 for id
99 — the malformed edge is discovered during propagation and diffusion
does something rather than nothing. -/
theorem malformed_edge_not_rejected :
    mapGet (applyDeliveries (mapSet [] 0 1) (wave badEdges 0 1)) 99 = 3/5 ∧
      (3/5 : ℚ) ≠ 0 ∧
      nodes.find? (fun n => n.id == 99) = none := by
  refine ⟨?_, by norm_num, rfl⟩
  norm_num [wave, spreadActivation, spreadGo, badEdges, edges, applyDeliveries,
    setIfHigher, mapGet, mapSet]

/-- Claim C9 (amended): no construction-time validation exists; over the
malformed edge list the first wave delivers 0.6 to ids 1, 2 and 99, the
ghost id 99 receives a ledger entry, and the only silent recovery is in
pulse emission: the failed node lookup for 99 suppresses its pulse while
nodes 1 and 2 pulse normally, and nothing crashes. -/
theorem malformed_edge_silent_behavior :
    wave badEdges 0 1 = [⟨1, 3/5, 1⟩, ⟨2, 3/5, 1⟩, ⟨99, 3/5, 1⟩] ∧
      mapGet (applyDeliveries (mapSet [] 0 1) (wave badEdges 0 1)) 99 = 3/5 ∧
      wavePulses 0 (wave badEdges 0 1) =
        [⟨(-3/2, 1, 1/2), 0⟩, ⟨(3/2, 1, -1/2), 0⟩] := by
  have hw : wave badEdges 0 1 = [⟨1, 3/5, 1⟩, ⟨2, 3/5, 1⟩, ⟨99, 3/5, 1⟩] := by
    norm_num [wave, spreadActivation, spreadGo, badEdges, edges]
  refine ⟨hw, ?_, ?_⟩
  · rw [hw]
    norm_num [applyDeliveries, setIfHigher, mapGet, mapSet]
  · rw [hw]
    norm_num [wavePulses, nodes, List.filterMap]

/-- Claim C10: the strength delivered by an in-flight propagation wave is a
pure function of the recursion parameters — from a seed of 1.0 at depth 1
every delivery transfers exactly `0.6 ^ depth` — and the recursion's
cutoff depends only on the threaded depth and strength, never on the
ledger: `spreadActivation` takes no ledger input at all. -/
theorem strength_parameter_only (es : List EngramEdge) (src : Nat) (d : Delivery)
    (hd : d ∈ spreadActivation es src 1 1) :
    d.transferStrength = (3/5) ^ d.depth ∧ 1 ≤ d.depth ∧ d.depth ≤ 3 :=
  spread_seed_strength es src d hd

/-- Witness for C10 at the first delivery of the reference tree. -/
theorem strength_parameter_only_witness :
    ((⟨1, 3/5, 1⟩ : Delivery) ∈ spreadActivation edges 0 1 1) ∧
      ((⟨1, (3:ℚ)/5, 1⟩ : Delivery).transferStrength =
          (3/5) ^ (⟨1, (3:ℚ)/5, 1⟩ : Delivery).depth ∧
        1 ≤ (⟨1, (3:ℚ)/5, 1⟩ : Delivery).depth ∧
        (⟨1, (3:ℚ)/5, 1⟩ : Delivery).depth ≤ 3) :=
  ⟨by rw [spreadActivation_ref_eval]; exact List.mem_cons_self _ _,
    strength_parameter_only edges 0 ⟨1, 3/5, 1⟩
      (by rw [spreadActivation_ref_eval]; exact List.mem_cons_self _ _)⟩

end Engram
